import Mathlib

/-
Verification of the `fourier` FFT library (github.com/calebzulawski/fourier).

This file gives a shallow embedding, in Lean 4, of the parts of the Rust
source that the verified properties speak about:

* the transform-kind enumeration and its inverse selector
  (`src/fourier-algorithms/src/fft.rs`, identical in `src/fourier/src/fft.rs`);
* the autosort step planner (`src/fourier-algorithms/src/autosort/mod.rs`,
  function `steps`) and the dispatching constructor
  (`src/fourier-algorithms/src/lib.rs`, `Configuration::new`);
* the twiddle generators (`src/fft/src/twiddle.rs`, identical in
  `src/fourier-new/src/twiddle.rs`) and the two twiddle-table initializers
  (`src/fourier-algorithms/src/autosort/mod.rs`,
  `StepParameters::initialize_twiddles`, and
  `src/fourier-new/src/autosort.rs`, `initialize_twiddles`);
* the Bluestein chirp construction (`src/fourier/src/bluesteins.rs` and
  `src/fourier-algorithms/src/bluesteins.rs`);
* the butterfly kernels (`src/fourier-algorithms/src/autosort/butterfly.rs`);
* the Stockham stage executor
  (`src/fourier/src/autosort/prime_factor.rs`, `apply_stages`) and the
  Bluestein executor (`src/fourier/src/bluesteins.rs`, `apply`);
* the out-of-place transform entry point (`Fft::transform`).

Machine floating point is idealized by exact real/complex arithmetic; the
trigonometric twiddle values are the exact values the double-precision code
approximates.  Rust panics (failed `assert!`s) are modelled by `Option`:
`none` is a panic, `some` is normal return.  Mutable slices are modelled as
`List ℂ` values threaded through the functions.
-/

namespace Fourier

/-- A complex number on the unit circle with the given angle (radians).
Interpretation function for all twiddle values in this file. -/
noncomputable def cexp (theta : ℝ) : ℂ := Complex.exp (theta * Complex.I)

theorem cexp_eq (theta : ℝ) :
    cexp theta = ⟨Real.cos theta, Real.sin theta⟩ := by
  rw [cexp, Complex.exp_mul_I]
  apply Complex.ext <;>
    simp [Complex.cos_ofReal_re, Complex.sin_ofReal_re]

theorem cexp_zero : cexp 0 = 1 := by
  simp [cexp]

theorem conj_cexp (theta : ℝ) :
    (starRingEnd ℂ) (cexp theta) = cexp (-theta) := by
  rw [cexp_eq, cexp_eq]
  apply Complex.ext <;> simp

/-- `Transform` from `src/fourier-algorithms/src/fft.rs` (also, verbatim,
`src/fourier/src/fft.rs`): the five transform kinds. -/
inductive Transform where
  | Fft
  | Ifft
  | UnscaledIfft
  | SqrtScaledFft
  | SqrtScaledIfft
deriving DecidableEq, Repr

namespace Transform

/-- `Transform::is_forward` from `src/fourier-algorithms/src/fft.rs`. -/
def is_forward : Transform → Bool
  | .Fft | .SqrtScaledFft => true
  | .Ifft | .UnscaledIfft | .SqrtScaledIfft => false

/-- `Transform::inverse` from `src/fourier-algorithms/src/fft.rs`. -/
def inverse : Transform → Option Transform
  | .Fft => some .Ifft
  | .Ifft => some .Fft
  | .SqrtScaledFft => some .SqrtScaledIfft
  | .SqrtScaledIfft => some .SqrtScaledFft
  | .UnscaledIfft => none

end Transform

/-- `StepParameters` from `src/fourier-algorithms/src/autosort/mod.rs`. -/
structure StepParameters where
  size : ℕ
  radix : ℕ
  stride : ℕ
deriving DecidableEq, Repr

/-- One `while current_size % radix == 0 { ... }` loop of the planner
`steps` in `src/fourier-algorithms/src/autosort/mod.rs`, with explicit fuel:
`none` means the fuel ran out before the loop exited (for `current = 0` the
loop never exits, see `while_divide_zero`). -/
def while_divide (fuel radix current stride : ℕ) (acc : List StepParameters) :
    Option (List StepParameters × ℕ × ℕ) :=
  match fuel with
  | 0 => none
  | f + 1 =>
    if current % radix = 0 then
      while_divide f radix (current / radix) (stride * radix)
        (acc ++ [⟨current, radix, stride⟩])
    else
      some (acc, current, stride)

/-- The planner `steps` from `src/fourier-algorithms/src/autosort/mod.rs`
with explicit fuel for each of its `while` loops.  The outer `Option` is
`none` when some loop exhausts its fuel; the inner `Option` is the planner's
own return value (`None` when the residual size is not 1). -/
def stepsF (fuel size : ℕ) : Option (Option (List StepParameters)) :=
  -- First step is radix 4 (helps performance)
  match (if size % 4 = 0 then ([⟨size, 4, 1⟩], size / 4, 4)
         else ([], size, 1) : List StepParameters × ℕ × ℕ) with
  | (acc0, cur0, str0) =>
  match while_divide fuel 8 cur0 str0 acc0 with
  | none => none
  | some (a8, c8, st8) =>
    match while_divide fuel 4 c8 st8 a8 with
    | none => none
    | some (a4, c4, st4) =>
      match while_divide fuel 3 c4 st4 a4 with
      | none => none
      | some (a3, c3, st3) =>
        match while_divide fuel 2 c3 st3 a3 with
        | none => none
        | some (a2, c2, _) =>
          some (if c2 = 1 then some a2 else none)

/-- `steps` from `src/fourier-algorithms/src/autosort/mod.rs`.  Fuel `size`
suffices for every positive size (`stepsF_isSome_of_pos`). -/
def steps (size : ℕ) : Option (List StepParameters) :=
  (stepsF size size).join

/-- The dispatched configuration, `Configuration` from
`src/fourier-algorithms/src/lib.rs`. -/
inductive Configuration where
  | Identity
  | Autosort (steps : List StepParameters)
  | Bluesteins (size : ℕ)
deriving DecidableEq, Repr

/-- Modelled from the spec: `autosort::Configuration::new` is absent from
`src/` (only its caller `Configuration::new` in
`src/fourier-algorithms/src/lib.rs` remains); per spec sections 4.5 and 4.8
autosort planning succeeds exactly when the planner `steps` (which is in
`src/`) returns a step list, and the configuration carries that plan. -/
def autosort_configuration_new (size : ℕ) : Option (List StepParameters) :=
  steps size

/-- Modelled from the spec: `bluesteins::Configuration::new` is absent from
`src/` (only its caller remains); per spec section 6, construction
"unconditionally succeeds for any positive size", choosing the inner FFT
length `next_power_of_two(2N - 1)`. -/
def bluesteins_configuration_new (size : ℕ) : Option Configuration :=
  some (.Bluesteins size)

/-- `Configuration::new` from `src/fourier-algorithms/src/lib.rs`. -/
def configuration_new (size : ℕ) : Option Configuration :=
  if size = 1 then some .Identity
  else
    match autosort_configuration_new size with
    | some c => some (.Autosort c)
    | none =>
      match bluesteins_configuration_new size with
      | some c => some c
      | none => none

/-- `N` is a product of powers of 2 and 3 (the sizes the autosort engine
handles). -/
def two_three_smooth (n : ℕ) : Prop := ∃ a b : ℕ, n = 2 ^ a * 3 ^ b

theorem two_three_smooth_mul {a b : ℕ} (ha : two_three_smooth a)
    (hb : two_three_smooth b) : two_three_smooth (a * b) := by
  obtain ⟨x1, y1, rfl⟩ := ha
  obtain ⟨x2, y2, rfl⟩ := hb
  exact ⟨x1 + x2, y1 + y2, by ring⟩

theorem two_three_smooth_pow {r : ℕ} (hr : two_three_smooth r) (k : ℕ) :
    two_three_smooth (r ^ k) := by
  induction k with
  | zero => exact ⟨0, 0, by norm_num⟩
  | succ n ih => rw [pow_succ]; exact two_three_smooth_mul ih hr

/-- While-loop spec: a normal exit divides out a power of the radix and
leaves a residual that the radix does not divide. -/
theorem while_divide_spec {fuel radix current stride : ℕ}
    {acc acc' : List StepParameters} {cur' str' : ℕ}
    (h : while_divide fuel radix current stride acc = some (acc', cur', str')) :
    (∃ k, current = cur' * radix ^ k) ∧ ¬ radix ∣ cur' := by
  induction fuel generalizing current stride acc with
  | zero => simp [while_divide] at h
  | succ f ih =>
    rw [while_divide] at h
    by_cases hc : current % radix = 0
    · rw [if_pos hc] at h
      obtain ⟨⟨k, hk⟩, hnd⟩ := ih h
      refine ⟨⟨k + 1, ?_⟩, hnd⟩
      have hdvd : radix ∣ current := Nat.dvd_of_mod_eq_zero hc
      calc current = current / radix * radix := (Nat.div_mul_cancel hdvd).symm
        _ = cur' * radix ^ k * radix := by rw [hk]
        _ = cur' * radix ^ (k + 1) := by ring
    · rw [if_neg hc] at h
      obtain ⟨rfl, rfl, rfl⟩ : acc = acc' ∧ current = cur' ∧ stride = str' := by
        simpa using h
      refine ⟨⟨0, by ring⟩, fun hd => hc ?_⟩
      obtain ⟨c, rfl⟩ := hd
      exact Nat.mul_mod_right _ _

/-- A positive current size with enough fuel always exits the while loop. -/
theorem while_divide_isSome {fuel radix current stride : ℕ}
    {acc : List StepParameters} (hr : 2 ≤ radix) (hc : 1 ≤ current)
    (hf : current ≤ fuel) :
    (while_divide fuel radix current stride acc).isSome := by
  induction fuel generalizing current stride acc with
  | zero => omega
  | succ f ih =>
    rw [while_divide]
    by_cases hm : current % radix = 0
    · rw [if_pos hm]
      have hdvd : radix ∣ current := Nat.dvd_of_mod_eq_zero hm
      have hrc : radix ≤ current := Nat.le_of_dvd hc hdvd
      have hlt : current / radix < current := Nat.div_lt_self hc hr
      have hpos : 1 ≤ current / radix := by
        rcases Nat.eq_zero_or_pos (current / radix) with h0 | h1
        · have := Nat.div_mul_cancel hdvd
          rw [h0, zero_mul] at this
          omega
        · exact h1
      exact ih hpos (by omega)
    · rw [if_neg hm]; rfl

/-- With no input size, the while loop never exits: 0 is divisible by every
radix and `0 / radix = 0`. -/
theorem while_divide_zero (fuel radix stride : ℕ) (acc : List StepParameters) :
    while_divide fuel radix 0 stride acc = none := by
  induction fuel generalizing stride acc with
  | zero => rfl
  | succ f ih => rw [while_divide]; simp [ih]

theorem pos_le_of_eq_mul_pow {cur cur' r k : ℕ} (hr : 2 ≤ r) (hc : 1 ≤ cur)
    (he : cur = cur' * r ^ k) : 1 ≤ cur' ∧ cur' ≤ cur := by
  have hp1 : 1 ≤ r ^ k := Nat.one_le_pow _ _ (by omega)
  constructor
  · rcases Nat.eq_zero_or_pos cur' with h0 | h1
    · subst h0; simp at he; omega
    · exact h1
  · calc cur' = cur' * 1 := (mul_one _).symm
      _ ≤ cur' * r ^ k := Nat.mul_le_mul_left cur' hp1
      _ = cur := he.symm

/-- For every positive size, fuel equal to the size is enough for the
planner, and the planner returns a plan exactly on 2-3-smooth sizes. -/
theorem stepsF_char (size : ℕ) (h1 : 1 ≤ size) :
    ∃ r, stepsF size size = some r ∧ (r.isSome ↔ two_three_smooth size) := by
  -- the state after the leading radix-4 step
  obtain ⟨acc0, cur0, str0, hs0, hc0pos, hc0le, hsize⟩ :
      ∃ (acc0 : List StepParameters) (cur0 str0 : ℕ),
        (if size % 4 = 0 then
            (([⟨size, 4, 1⟩] : List StepParameters), size / 4, 4)
          else (([] : List StepParameters), size, 1)) = (acc0, cur0, str0) ∧
        1 ≤ cur0 ∧ cur0 ≤ size ∧
        (size = 4 * cur0 ∨ size = cur0) := by
    by_cases hm : size % 4 = 0
    · have hdvd : 4 ∣ size := Nat.dvd_of_mod_eq_zero hm
      refine ⟨_, _, _, if_pos hm, ?_, Nat.div_le_self _ _, Or.inl ?_⟩
      · have := Nat.div_mul_cancel hdvd
        rcases Nat.eq_zero_or_pos (size / 4) with h0 | hpos
        · rw [h0, zero_mul] at this; omega
        · exact hpos
      · exact (Nat.mul_div_cancel' hdvd).symm
    · exact ⟨_, _, _, if_neg hm, h1, le_refl _, Or.inr rfl⟩
  obtain ⟨⟨a8, c8, st8⟩, h8⟩ := Option.isSome_iff_exists.mp
    (@while_divide_isSome size 8 cur0 str0 acc0 (by norm_num) hc0pos hc0le)
  obtain ⟨⟨k8, hk8⟩, hnd8⟩ := while_divide_spec h8
  obtain ⟨hc8pos, hc8le⟩ := pos_le_of_eq_mul_pow (by norm_num) hc0pos hk8
  obtain ⟨⟨a4, c4, st4⟩, h4⟩ := Option.isSome_iff_exists.mp
    (@while_divide_isSome size 4 c8 st8 a8 (by norm_num) hc8pos
      (hc8le.trans hc0le))
  obtain ⟨⟨k4, hk4⟩, hnd4⟩ := while_divide_spec h4
  obtain ⟨hc4pos, hc4le⟩ := pos_le_of_eq_mul_pow (by norm_num) hc8pos hk4
  obtain ⟨⟨a3, c3, st3⟩, h3⟩ := Option.isSome_iff_exists.mp
    (@while_divide_isSome size 3 c4 st4 a4 (by norm_num) hc4pos
      ((hc4le.trans hc8le).trans hc0le))
  obtain ⟨⟨k3, hk3⟩, hnd3⟩ := while_divide_spec h3
  obtain ⟨hc3pos, hc3le⟩ := pos_le_of_eq_mul_pow (by norm_num) hc4pos hk3
  obtain ⟨⟨a2, c2, st2⟩, h2⟩ := Option.isSome_iff_exists.mp
    (@while_divide_isSome size 2 c3 st3 a3 (by norm_num) hc3pos
      (((hc3le.trans hc4le).trans hc8le).trans hc0le))
  obtain ⟨⟨k2, hk2⟩, hnd2⟩ := while_divide_spec h2
  refine ⟨if c2 = 1 then some a2 else none, ?_, ?_⟩
  · simp only [stepsF, hs0, h8, h4, h3, h2]
  · constructor
    · intro hsome
      have hc2 : c2 = 1 := by
        by_contra hne
        rw [if_neg hne] at hsome
        simp at hsome
      subst hc2
      have hsm0 : two_three_smooth cur0 := by
        rw [hk8, hk4, hk3, hk2]
        have h2s : two_three_smooth 2 := ⟨1, 0, by norm_num⟩
        have h3s : two_three_smooth 3 := ⟨0, 1, by norm_num⟩
        have h4s : two_three_smooth 4 := ⟨2, 0, by norm_num⟩
        have h8s : two_three_smooth 8 := ⟨3, 0, by norm_num⟩
        refine two_three_smooth_mul (two_three_smooth_mul (two_three_smooth_mul
          (two_three_smooth_mul ⟨0, 0, by norm_num⟩ ?_) ?_) ?_) ?_
        · exact two_three_smooth_pow h2s k2
        · exact two_three_smooth_pow h3s k3
        · exact two_three_smooth_pow h4s k4
        · exact two_three_smooth_pow h8s k8
      rcases hsize with hs | hs
      · rw [hs]
        exact two_three_smooth_mul ⟨2, 0, by norm_num⟩ hsm0
      · rw [hs]; exact hsm0
    · intro hsm
      have hd2 : c2 ∣ c3 := ⟨2 ^ k2, hk2⟩
      have hd3 : c3 ∣ c4 := ⟨3 ^ k3, hk3⟩
      have hd4 : c4 ∣ c8 := ⟨4 ^ k4, hk4⟩
      have hd8 : c8 ∣ cur0 := ⟨8 ^ k8, hk8⟩
      have hd0 : cur0 ∣ size := by
        rcases hsize with hs | hs
        · exact ⟨4, by omega⟩
        · rw [hs]
      have hdsize : c2 ∣ size :=
        (((hd2.trans hd3).trans hd4).trans hd8).trans hd0
      have hnd3' : ¬ 3 ∣ c2 := fun h => hnd3 (h.trans hd2)
      obtain ⟨x, y, hxy⟩ := hsm
      have cop2 : Nat.Coprime c2 2 :=
        ((Nat.Prime.coprime_iff_not_dvd Nat.prime_two).mpr hnd2).symm
      have cop3 : Nat.Coprime c2 3 :=
        ((Nat.Prime.coprime_iff_not_dvd Nat.prime_three).mpr hnd3').symm
      have cop : Nat.Coprime c2 (2 ^ x * 3 ^ y) :=
        Nat.Coprime.mul_right (cop2.pow_right x) (cop3.pow_right y)
      have hc2 : c2 = 1 := by
        have hdvd1 : c2 ∣ Nat.gcd c2 (2 ^ x * 3 ^ y) :=
          Nat.dvd_gcd dvd_rfl (hxy ▸ hdsize)
        rw [cop] at hdvd1
        exact Nat.dvd_one.mp hdvd1
      rw [if_pos hc2]
      rfl

/-- With no input size, the planner never terminates, whatever the fuel. -/
theorem stepsF_zero (fuel : ℕ) : stepsF fuel 0 = none := by
  simp [stepsF, while_divide_zero]

/-- C2: for every size `N ≥ 1` plan construction succeeds; the identity
algorithm is chosen exactly when `N = 1`; otherwise the autosort algorithm
is chosen exactly when `N = 2^a·3^b` (the planner `steps` returns `none`
precisely when `N` has a prime factor other than 2 or 3, i.e. when the
residual after dividing out the radix sequence `[4, 8, 4, 3, 2]` is not 1);
otherwise Bluestein's algorithm is chosen. -/
theorem configuration_new_dispatch (N : ℕ) (h1 : 1 ≤ N) :
    (configuration_new N).isSome ∧
    (steps N = none ↔ ¬ two_three_smooth N) ∧
    (configuration_new N = some .Identity ↔ N = 1) ∧
    ((∃ l, configuration_new N = some (.Autosort l)) ↔
      N ≠ 1 ∧ two_three_smooth N) ∧
    ((∃ m, configuration_new N = some (.Bluesteins m)) ↔
      N ≠ 1 ∧ ¬ two_three_smooth N) := by
  obtain ⟨r, hr, hiff⟩ := stepsF_char N h1
  have hsteps : steps N = r := by rw [steps, hr]; rfl
  have hnone : steps N = none ↔ ¬ two_three_smooth N := by
    rw [hsteps]
    rw [← hiff]
    cases r <;> simp
  by_cases hN : N = 1
  · subst hN
    have hsm : two_three_smooth 1 := ⟨0, 0, by norm_num⟩
    refine ⟨by rw [configuration_new]; rfl, hnone, ?_, ?_, ?_⟩
    · simp [configuration_new]
    · simp [configuration_new]
    · simp [configuration_new]
  · rcases hr2 : steps N with _ | l
    · have hnsm : ¬ two_three_smooth N := hnone.mp hr2
      have hcfg : configuration_new N = some (.Bluesteins N) := by
        rw [configuration_new, if_neg hN, autosort_configuration_new, hr2]
        rfl
      refine ⟨by rw [hcfg]; rfl, by simp [hnsm], ?_, ?_, ?_⟩
      · rw [hcfg]; simp [hN]
      · rw [hcfg]; simp [hN, hnsm]
      · rw [hcfg]; simp [hN, hnsm]
    · have hsm : two_three_smooth N := by
        by_contra hnsm
        rw [hnone.mpr hnsm] at hr2
        exact Option.noConfusion hr2
      have hcfg : configuration_new N = some (.Autosort l) := by
        rw [configuration_new, if_neg hN, autosort_configuration_new, hr2]
      refine ⟨by rw [hcfg]; rfl, by simp [hsm], ?_, ?_, ?_⟩
      · rw [hcfg]; simp [hN]
      · rw [hcfg]; simp [hN, hsm]
      · rw [hcfg]; simp [hN, hsm]

/-- Witness for C2: evaluated at the concrete size `N = 12 = 2²·3`
(autosort) — construction succeeds and yields an autosort plan. -/
theorem configuration_new_dispatch_witness :
    (configuration_new 12).isSome ∧
    (∃ l, configuration_new 12 = some (.Autosort l)) := by
  have h := configuration_new_dispatch 12 (by norm_num)
  exact ⟨h.1, h.2.2.2.1.mpr ⟨by norm_num, ⟨2, 1, by norm_num⟩⟩⟩

/-- C9: the autosort planning loop terminates for every `size ≥ 1` (some
fuel — in fact `size` itself — makes every `while` exit), but for
`size = 0` the loop never terminates: 0 is divisible by every radix and
`0 / radix = 0`, so no amount of fuel reaches an exit. -/
theorem steps_termination :
    (∀ size : ℕ, 1 ≤ size → ∃ fuel, (stepsF fuel size).isSome) ∧
    (∀ fuel : ℕ, stepsF fuel 0 = none) := by
  constructor
  · intro size h1
    obtain ⟨r, hr, _⟩ := stepsF_char size h1
    exact ⟨size, by rw [hr]; rfl⟩
  · exact stepsF_zero

/-- Witness for C9: at the concrete size 6 the planner terminates. -/
theorem steps_termination_witness :
    ∃ fuel, (stepsF fuel 6).isSome :=
  steps_termination.1 6 (by norm_num)

/-- `compute_twiddle` from `src/fft/src/twiddle.rs` (textually identical in
`src/fourier-new/src/twiddle.rs`): `theta = (index * 2)·π / size`, value
`(cos theta, -sin theta)`, conjugated for the inverse direction.  The
double-precision trigonometry is idealized by exact reals. -/
noncomputable def compute_twiddle (index size : ℕ) (forward : Bool) : ℂ :=
  let theta : ℝ := ((index * 2 : ℕ) : ℝ) * Real.pi / (size : ℝ)
  let twiddle : ℂ := ⟨Real.cos theta, -Real.sin theta⟩
  if forward then twiddle else (starRingEnd ℂ) twiddle

theorem compute_twiddle_forward (index size : ℕ) :
    compute_twiddle index size true
      = cexp (-(2 * Real.pi * (index : ℝ) / (size : ℝ))) := by
  rw [compute_twiddle, cexp_eq]
  have harg : -(2 * Real.pi * (index : ℝ) / (size : ℝ))
      = -(((index * 2 : ℕ) : ℝ) * Real.pi / (size : ℝ)) := by
    push_cast; ring
  rw [harg]
  simp [Real.cos_neg, Real.sin_neg]

theorem compute_twiddle_inverse (index size : ℕ) :
    compute_twiddle index size false
      = cexp (2 * Real.pi * (index : ℝ) / (size : ℝ)) := by
  have h : compute_twiddle index size false
      = (starRingEnd ℂ) (compute_twiddle index size true) := by
    simp [compute_twiddle]
  rw [h, compute_twiddle_forward, conj_cexp, neg_neg]

/-- `compute_half_twiddle` from `src/fourier/src/bluesteins.rs` (textually
identical in `src/fourier-algorithms/src/bluesteins.rs`):
`theta = index·π / size`, value `(cos theta, -sin theta)`. -/
noncomputable def compute_half_twiddle (index : ℝ) (size : ℕ) : ℂ :=
  let theta : ℝ := index * Real.pi / (size : ℝ)
  ⟨Real.cos theta, -Real.sin theta⟩

theorem compute_half_twiddle_eq (index : ℝ) (size : ℕ) :
    compute_half_twiddle index size
      = cexp (-(index * Real.pi / (size : ℝ))) := by
  rw [compute_half_twiddle, cexp_eq]
  simp [Real.cos_neg, Real.sin_neg]

theorem compute_half_twiddle_neg_sq (k size : ℕ) :
    compute_half_twiddle (-((k : ℝ) ^ 2)) size
      = cexp (Real.pi * (k : ℝ) ^ 2 / (size : ℝ)) := by
  rw [compute_half_twiddle_eq]
  congr 1
  ring

namespace FourierCrate

/-- The "x" chirp construction from `BluesteinsAlgorithm::new` in
`src/fourier/src/bluesteins.rs`: for each `i` in `0..size`,
`x_forward[i] = compute_half_twiddle(-(i²), size)` and
`x_inverse[i] = x_forward[i].conj()`.  First component forward, second
inverse. -/
noncomputable def bluesteins_x (size : ℕ) : List ℂ × List ℂ :=
  ((List.range size).map fun (i : ℕ) => compute_half_twiddle (-((i : ℝ) ^ 2)) size,
   (List.range size).map fun (i : ℕ) =>
     (starRingEnd ℂ) (compute_half_twiddle (-((i : ℝ) ^ 2)) size))

end FourierCrate

namespace FourierAlgorithms

/-- `initialize_x_twiddles` from `src/fourier-algorithms/src/bluesteins.rs`:
for each `i` in `0..size`, `twiddle = compute_half_twiddle(-(i²), size)`,
`forward_twiddles[i] = twiddle.conj()`, `inverse_twiddles[i] = twiddle`.
First component forward, second inverse. -/
noncomputable def initialize_x_twiddles (size : ℕ) : List ℂ × List ℂ :=
  ((List.range size).map fun (i : ℕ) =>
     (starRingEnd ℂ) (compute_half_twiddle (-((i : ℝ) ^ 2)) size),
   (List.range size).map fun (i : ℕ) => compute_half_twiddle (-((i : ℝ) ^ 2)) size)

end FourierAlgorithms

/-- C3 (corrected): the `fourier` crate's Bluestein construction
(`src/fourier/src/bluesteins.rs`) builds the forward "x" chirp as
`x_fwd[k] = exp(+i·π·k²/N)` and the inverse chirp as its elementwise
conjugate `exp(-i·π·k²/N)`, exactly as the claim states; the
`fourier-algorithms` construction (`initialize_x_twiddles` in
`src/fourier-algorithms/src/bluesteins.rs`) swaps the two roles, building
the forward chirp as `exp(-i·π·k²/N)` and the inverse as
`exp(+i·π·k²/N)`. -/
theorem bluesteins_x_chirp_spec (N k : ℕ) (hk : k < N) :
    ((FourierCrate.bluesteins_x N).1)[k]?
        = some (cexp (Real.pi * (k : ℝ) ^ 2 / (N : ℝ))) ∧
    ((FourierCrate.bluesteins_x N).2)[k]?
        = some (cexp (-(Real.pi * (k : ℝ) ^ 2 / (N : ℝ)))) ∧
    ((FourierAlgorithms.initialize_x_twiddles N).1)[k]?
        = some (cexp (-(Real.pi * (k : ℝ) ^ 2 / (N : ℝ)))) ∧
    ((FourierAlgorithms.initialize_x_twiddles N).2)[k]?
        = some (cexp (Real.pi * (k : ℝ) ^ 2 / (N : ℝ))) := by
  have hfwd := compute_half_twiddle_neg_sq k N
  have hinv : (starRingEnd ℂ) (compute_half_twiddle (-((k : ℝ) ^ 2)) N)
      = cexp (-(Real.pi * (k : ℝ) ^ 2 / (N : ℝ))) := by
    rw [hfwd, conj_cexp]
  have hget : ∀ f : ℕ → ℂ, ((List.range N).map f)[k]? = some (f k) := by
    intro f
    rw [List.getElem?_map, List.getElem?_range hk, Option.map_some']
  exact ⟨by simp only [FourierCrate.bluesteins_x, hget, hfwd],
    by simp only [FourierCrate.bluesteins_x, hget, hinv],
    by simp only [FourierAlgorithms.initialize_x_twiddles, hget, hinv],
    by simp only [FourierAlgorithms.initialize_x_twiddles, hget, hfwd]⟩

/-- Witness for C3: the amended statement evaluated at `N = 2`, `k = 1`. -/
theorem bluesteins_x_chirp_spec_witness :
    (1 < 2) ∧
    ((FourierAlgorithms.initialize_x_twiddles 2).1)[1]?
        = some (cexp (-(Real.pi * (1 : ℝ) ^ 2 / (2 : ℝ)))) :=
  ⟨by norm_num, by
    have h := bluesteins_x_chirp_spec 2 1 (by norm_num)
    exact_mod_cast h.2.2.1⟩

/-- Counterexample for C3: at `N = 2`, `k = 1` the `fourier-algorithms`
forward "x" chirp is `exp(-i·π/2) = -i`, not the claimed
`exp(+i·π/2) = i`. -/
theorem bluesteins_x_chirp_counterexample :
    ((FourierAlgorithms.initialize_x_twiddles 2).1)[1]?
      ≠ some (cexp (Real.pi * (1 : ℝ) ^ 2 / (2 : ℝ))) := by
  have hval : ((FourierAlgorithms.initialize_x_twiddles 2).1)[1]?
      = some ((starRingEnd ℂ)
          (compute_half_twiddle (-(((1 : ℕ) : ℝ) ^ 2)) 2)) := rfl
  have hneg : (starRingEnd ℂ) (compute_half_twiddle (-(((1 : ℕ) : ℝ) ^ 2)) 2)
      = -Complex.I := by
    rw [compute_half_twiddle_neg_sq, conj_cexp, cexp_eq]
    have h1 : -(Real.pi * ((1 : ℕ) : ℝ) ^ 2 / ((2 : ℕ) : ℝ))
        = -(Real.pi / 2) := by
      push_cast; ring
    rw [h1]
    apply Complex.ext <;>
      simp [Real.cos_pi_div_two, Real.sin_pi_div_two]
  have hpos : cexp (Real.pi * (1 : ℝ) ^ 2 / (2 : ℝ)) = Complex.I := by
    rw [cexp_eq]
    have h1 : Real.pi * (1 : ℝ) ^ 2 / (2 : ℝ) = Real.pi / 2 := by ring
    rw [h1]
    apply Complex.ext <;>
      simp [Real.cos_pi_div_two, Real.sin_pi_div_two]
  rw [hval, hneg, hpos]
  intro hcontra
  have heq : -Complex.I = Complex.I := Option.some.inj hcontra
  have him : (-Complex.I).im = Complex.I.im := by rw [heq]
  simp only [Complex.neg_im, Complex.I_im] at him
  norm_num at him

namespace FourierAlgorithms

/-- `StepParameters::initialize_twiddles` from
`src/fourier-algorithms/src/autosort/mod.rs` (one direction; the source
writes the forward and inverse tables in the same loop).  For a stage with
the given size and radix, `m = size / radix`; for each `i` in `0..m` the
code writes `table[0] = 1` and, for `j` in `1..radix`,
`table[j] = compute_twiddle(i * j, size, forward)` — the write index is `j`,
with no `i * radix` base offset. -/
noncomputable def initialize_twiddles (size radix : ℕ) (forward : Bool)
    (table : List ℂ) : List ℂ :=
  (List.range (size / radix)).foldl (fun tbl i =>
    (List.range (radix - 1)).foldl
      (fun tbl2 j => tbl2.set (j + 1) (compute_twiddle (i * (j + 1)) size forward))
      (tbl.set 0 1))
    table

end FourierAlgorithms

namespace FourierNew

/-- One stage iteration of `initialize_twiddles` from
`src/fourier-new/src/autosort.rs`: for each `i` in `0..size/radix` the code
pushes `1` followed by `compute_twiddle(i * j, size)` for `j` in
`1..radix`, so slab `i` lands at offset `i * radix` of the stage's table
region. -/
noncomputable def stage_twiddles (size radix : ℕ) (forward : Bool) : List ℂ :=
  (List.range (size / radix)).flatMap (fun (i : ℕ) =>
    1 :: (List.range (radix - 1)).map
      (fun (j : ℕ) => compute_twiddle (i * (j + 1)) size forward))

end FourierNew

/-- C4 (code bug): for the first stage of the size-8 plan — stage parameters
`(size, radix) = (8, 4)`, hence `m = size/radix = 2` slabs of width 4 — the
`fourier-new` initializer writes slab `i = 1` at offset `i·radix = 4`
holding `[1, tw(1), tw(2), tw(3)]`, as the claim states; but
`fourier-algorithms`' `StepParameters::initialize_twiddles`, started on a
zero table of length 8, writes every slab at offset 0, leaving position 4
(the claimed location of slab 1's leading 1) equal to 0.  Its own consumers
(`ButterflyIter` in `src/fourier-algorithms/src/autosort/butterfly.rs`)
advance the twiddle pointer by `radix` per sub-DFT, so they expect the
claimed layout. -/
theorem initialize_twiddles_layout :
    FourierNew.stage_twiddles 8 4 true
      = [1, compute_twiddle 0 8 true, compute_twiddle 0 8 true,
         compute_twiddle 0 8 true, 1, compute_twiddle 1 8 true,
         compute_twiddle 2 8 true, compute_twiddle 3 8 true] ∧
    FourierAlgorithms.initialize_twiddles 8 4 true (List.replicate 8 0)
      = [1, compute_twiddle 1 8 true, compute_twiddle 2 8 true,
         compute_twiddle 3 8 true, 0, 0, 0, 0] ∧
    (FourierNew.stage_twiddles 8 4 true)[4]? = some 1 ∧
    (FourierAlgorithms.initialize_twiddles 8 4 true (List.replicate 8 0))[4]?
      = some 0 ∧
    (0 : ℂ) ≠ 1 := by
  refine ⟨?_, ?_, ?_, ?_, ?_⟩
  · rfl
  · rfl
  · rfl
  · rfl
  · intro h
    have := congrArg Complex.re h
    norm_num at this

theorem cexp_nat_mul (m : ℕ) (theta : ℝ) :
    cexp ((m : ℝ) * theta) = (cexp theta) ^ m := by
  rw [cexp, cexp]
  rw [show ((((m : ℝ) * theta : ℝ) : ℂ) * Complex.I)
      = (m : ℂ) * (((theta : ℝ) : ℂ) * Complex.I) by push_cast; ring]
  exact Complex.exp_nat_mul _ m

theorem cexp_neg_pi_div_two : cexp (-(Real.pi / 2)) = -Complex.I := by
  rw [cexp_eq]
  apply Complex.ext <;> simp

/-- The value `exp(-2πi·m/4)` is `(-i)^m`. -/
theorem cexp_neg_quarter (m : ℕ) :
    cexp (-(2 * Real.pi * (m : ℝ) / 4)) = (-Complex.I) ^ m := by
  rw [show -(2 * Real.pi * (m : ℝ) / 4) = (m : ℝ) * -(Real.pi / 2) by ring,
    cexp_nat_mul, cexp_neg_pi_div_two]

/-- Lane-wise `mul_i` of the vector abstraction (`generic_simd`; spec
section 4.2: rotation by `+i`). -/
def mul_i (z : ℂ) : ℂ := z * Complex.I

/-- Lane-wise `mul_neg_i` of the vector abstraction (rotation by `-i`). -/
def mul_neg_i (z : ℂ) : ℂ := z * (-Complex.I)

namespace Butterfly2

/-- `Butterfly2::apply` from
`src/fourier-algorithms/src/autosort/butterfly.rs` (single lane; every
vector operation used is lane-wise): `[x0 + x1, x0 - x1]`, ignoring the
direction. -/
def apply (input : ℂ × ℂ) (_forward : Bool) : ℂ × ℂ :=
  (input.1 + input.2, input.1 - input.2)

end Butterfly2

namespace Butterfly4

/-- `Butterfly4::apply` from
`src/fourier-algorithms/src/autosort/butterfly.rs` (single lane): two
radix-2 butterflies on `(x0, x2)` and `(x1, x3)`, rotation of the fourth
intermediate by `+i` (forward) or `-i` (inverse), two more radix-2
butterflies, output permutation `[0, 3, 1, 2]` of the intermediates. -/
def apply (input : ℂ × ℂ × ℂ × ℂ) (forward : Bool) : ℂ × ℂ × ℂ × ℂ :=
  match input with
  | (x0, x1, x2, x3) =>
    let a0 := Butterfly2.apply (x0, x2) forward
    let a1 := Butterfly2.apply (x1, x3) forward
    let a3 := if forward then mul_i a1.2 else mul_neg_i a1.2
    let b0 := Butterfly2.apply (a0.1, a1.1) forward
    let b1 := Butterfly2.apply (a0.2, a3) forward
    (b0.1, b1.2, b0.2, b1.1)

end Butterfly4

/-- The naive 4-point DFT: `y[k] = Σ_j x[j]·exp(-2πi·j·k/4)`. -/
noncomputable def dft4 (x : Fin 4 → ℂ) (k : ℕ) : ℂ :=
  ∑ j : Fin 4, x j * cexp (-(2 * Real.pi * (((j : ℕ) * k : ℕ) : ℝ) / 4))

/-- C6: in exact arithmetic the forward radix-4 butterfly — two radix-2
butterflies on `(x0,x2)` and `(x1,x3)`, rotation of the fourth intermediate
by `+i`, two more radix-2 butterflies, output permutation `[0, 3, 1, 2]` —
equals the 4-point DFT lane-wise. -/
theorem butterfly4_forward_dft (x : Fin 4 → ℂ) :
    Butterfly4.apply (x 0, x 1, x 2, x 3) true
      = (dft4 x 0, dft4 x 1, dft4 x 2, dft4 x 3) := by
  have p2 : (-Complex.I) ^ (2 : ℕ) = -1 := by
    rw [pow_two, neg_mul_neg, ← pow_two, Complex.I_sq]
  have p3 : (-Complex.I) ^ (3 : ℕ) = Complex.I := by
    rw [pow_succ, p2]; ring
  have p4 : (-Complex.I) ^ (4 : ℕ) = 1 := by
    rw [pow_succ, p3, mul_neg, ← pow_two, Complex.I_sq]; ring
  have p6 : (-Complex.I) ^ (6 : ℕ) = -1 := by
    rw [show (6 : ℕ) = 4 + 2 from rfl, pow_add, p4, p2]; ring
  have p9 : (-Complex.I) ^ (9 : ℕ) = -Complex.I := by
    rw [show (9 : ℕ) = 4 + 4 + 1 from rfl, pow_add, pow_add, p4, pow_one]; ring
  have hv : ∀ k : ℕ, dft4 x k
      = x 0 * (-Complex.I) ^ (0 * k) + x 1 * (-Complex.I) ^ (1 * k)
        + x 2 * (-Complex.I) ^ (2 * k) + x 3 * (-Complex.I) ^ (3 * k) := by
    intro k
    rw [dft4, Fin.sum_univ_four, cexp_neg_quarter, cexp_neg_quarter,
      cexp_neg_quarter, cexp_neg_quarter]
    norm_num [show ((2 : Fin 4) : ℕ) = 2 from rfl,
      show ((3 : Fin 4) : ℕ) = 3 from rfl]
  simp only [Butterfly4.apply, Butterfly2.apply, mul_i, mul_neg_i,
    if_pos, Prod.mk.injEq]
  refine ⟨?_, ?_, ?_, ?_⟩ <;>
    · rw [hv]; norm_num [p2, p3, p4, p6, p9]; ring

/-- One stage of `apply_stages` from
`src/fourier/src/autosort/prime_factor.rs`, iterated `n` times at a fixed
radix: each iteration applies the narrow kernel when `stride < W`
(`width!()`) and the wide kernel otherwise, then updates
`size /= radix; stride *= radix` and advances the twiddle slice by
`size * radix` (narrow) or `size * radix * W` (wide, using the updated
size, as in the source).  `kernel wide radix forward size stride twiddles`
maps the source buffer to the destination buffer (the radix functions
write every element of the destination).  Returns the updated
`(size, stride, twiddles, data)`. -/
def stage_iter (W : ℕ)
    (kernel : Bool → ℕ → Bool → ℕ → ℕ → List ℂ → List ℂ → List ℂ)
    (forward : Bool) (radix : ℕ) :
    ℕ → ℕ → ℕ → List ℂ → List ℂ → ℕ × ℕ × List ℂ × List ℂ
  | 0, size, stride, twiddles, data => (size, stride, twiddles, data)
  | n + 1, size, stride, twiddles, data =>
    if stride < W then
      stage_iter W kernel forward radix n (size / radix) (stride * radix)
        (twiddles.drop (size / radix * radix))
        (kernel false radix forward size stride twiddles data)
    else
      stage_iter W kernel forward radix n (size / radix) (stride * radix)
        (twiddles.drop (size / radix * radix * W))
        (kernel true radix forward size stride twiddles data)

/-- The stage loop of `apply_stages` over the planned `(radix, iterations)`
stages.  The ping-pong between the caller's buffer and the work buffer is
modelled by threading the current data; the source always leaves the final
(possibly scaled) data in the caller's buffer. -/
def stage_loop (W : ℕ)
    (kernel : Bool → ℕ → Bool → ℕ → ℕ → List ℂ → List ℂ → List ℂ)
    (forward : Bool) :
    List (ℕ × ℕ) → ℕ → ℕ → List ℂ → List ℂ → List ℂ
  | [], _, _, _, data => data
  | (radix, iterations) :: rest, size, stride, twiddles, data =>
    match stage_iter W kernel forward radix iterations size stride twiddles
      data with
    | (size2, stride2, tw2, data2) =>
      stage_loop W kernel forward rest size2 stride2 tw2 data2

/-- `apply_stages` from `src/fourier/src/autosort/prime_factor.rs`
(`make_stage_fns`): asserts `input.len() == output.len()` and
`stages.size == input.len()`, picks the twiddle table by direction, runs
the stages starting from `size = stages.size`, `stride = 1`, and finally
applies the scale policy: none for `Fft`/`UnscaledIfft`, `1/N` for `Ifft`,
`1/√N` for the square-root-scaled kinds. -/
noncomputable def apply_stages (W : ℕ)
    (kernel : Bool → ℕ → Bool → ℕ → ℕ → List ℂ → List ℂ → List ℂ)
    (stages : List (ℕ × ℕ)) (stages_size : ℕ)
    (forward_twiddles reverse_twiddles : List ℂ)
    (input output : List ℂ) (t : Transform) : Option (List ℂ) :=
  if input.length = output.length ∧ stages_size = input.length then
    let twiddles :=
      if t.is_forward then forward_twiddles else reverse_twiddles
    let data :=
      stage_loop W kernel t.is_forward stages stages_size 1 twiddles input
    some (match t with
      | .Fft | .UnscaledIfft => data
      | .Ifft => data.map (fun z => z * ((1 / (stages_size : ℝ) : ℝ) : ℂ))
      | .SqrtScaledFft | .SqrtScaledIfft =>
          data.map (fun z =>
            z * ((1 / Real.sqrt (stages_size : ℝ) : ℝ) : ℂ)))
  else none

/-- The trailing `input[1..].reverse()` of `apply` in
`src/fourier/src/bluesteins.rs`. -/
def reverse_tail (l : List ℂ) : List ℂ :=
  match l with
  | [] => []
  | a :: rest => a :: rest.reverse

/-- `apply` from `src/fourier/src/bluesteins.rs`: asserts
`input.len() == size`; multiplies by the "x" chirp into the work buffer
(zero-padded to the inner length), forward inner FFT, pointwise multiply by
the pre-FFT'd "w" chirp, inverse inner FFT, then writes
`work[k] * x[k]` times the scale policy back to the input and reverses
`input[1..]`.  The inner FFT is the abstract `&dyn Fft` parameter of the
source, modelled by a function from direction and buffer to buffer. -/
noncomputable def bluesteins_apply (size : ℕ) (x w : List ℂ)
    (inner_fft : Bool → List ℂ → List ℂ)
    (input work : List ℂ) (t : Transform) : Option (List ℂ) :=
  if input.length = size then
    let work1 := List.zipWith (· * ·) x input
      ++ List.replicate (work.length - size) 0
    let work2 := inner_fft true work1
    let work3 := List.zipWith (· * ·) work2 w
    let work4 := inner_fft false work3
    let out := match t with
      | .Fft | .UnscaledIfft =>
          List.zipWith (fun wv xv => wv * xv) work4 x
      | .Ifft =>
          List.zipWith (fun wv xv =>
            wv * xv * ((1 / (size : ℝ) : ℝ) : ℂ)) work4 x
      | .SqrtScaledFft | .SqrtScaledIfft =>
          List.zipWith (fun wv xv =>
            wv * xv * ((1 / Real.sqrt (size : ℝ) : ℝ) : ℂ)) work4 x
    some (reverse_tail out)
  else none

/-- `BluesteinsAlgorithm::transform_in_place` from
`src/fourier/src/bluesteins.rs`: selects the direction-matching "x" and
"w" chirps and calls `apply`. -/
noncomputable def bluesteins_transform_in_place (size : ℕ)
    (x_forward x_inverse w_forward w_inverse : List ℂ)
    (inner_fft : Bool → List ℂ → List ℂ)
    (input work : List ℂ) (t : Transform) : Option (List ℂ) :=
  bluesteins_apply size
    (if t.is_forward then x_forward else x_inverse)
    (if t.is_forward then w_forward else w_inverse)
    inner_fft input work t

namespace Identity

/-- `Identity::transform_in_place` from
`src/fourier-algorithms/src/identity.rs`: the body is empty — no length
check, the buffer is returned untouched whatever its length. -/
def transform_in_place (input : List ℂ) (_t : Transform) : Option (List ℂ) :=
  some input

end Identity

namespace Fft

/-- The provided (default) out-of-place `Fft::transform` from
`src/fourier-algorithms/src/fft.rs` (verbatim in `src/fourier/src/fft.rs`):
assert both buffer lengths equal the plan size, copy the input into the
output, then run the implementor's in-place transform on the output.  The
result pair is the final contents of the two buffers
`(input, output)`; `transform_in_place` is the implementor's in-place
transform, which may itself panic (`none`). -/
def transform (size : ℕ)
    (transform_in_place : List ℂ → Transform → Option (List ℂ))
    (input output : List ℂ) (t : Transform) : Option (List ℂ × List ℂ) :=
  if input.length = size then
    if output.length = size then
      match transform_in_place input t with
      | some r => some (input, r)
      | none => none
    else none
  else none

end Fft

theorem zipWith_mul_scale (s : ℂ) (l1 l2 : List ℂ) :
    List.zipWith (fun a b => a * b * s) l1 l2
      = (List.zipWith (fun a b => a * b) l1 l2).map (fun z => z * s) := by
  induction l1 generalizing l2 with
  | nil => simp
  | cons a l ih => cases l2 <;> simp [ih]

theorem reverse_tail_map (f : ℂ → ℂ) (l : List ℂ) :
    reverse_tail (l.map f) = (reverse_tail l).map f := by
  cases l <;> simp [reverse_tail]

/-- A trivial stage kernel (used to instantiate the executor theorems at a
concrete input). -/
def id_kernel : Bool → ℕ → Bool → ℕ → ℕ → List ℂ → List ℂ → List ℂ :=
  fun _ _ _ _ _ _ data => data

/-- A trivial inner FFT (used to instantiate the executor theorems at a
concrete input). -/
def id_inner : Bool → List ℂ → List ℂ := fun _ data => data

/-- C5: for both executors — the autosort `apply_stages` of
`src/fourier/src/autosort/prime_factor.rs` and the Bluestein
`transform_in_place`/`apply` of `src/fourier/src/bluesteins.rs` — the final
scale step is the only difference between transform kinds of the same
direction: `SqrtScaledFft` is `Fft` followed by a per-element multiply by
`1/√N`; `Ifft` (resp. `SqrtScaledIfft`) is `UnscaledIfft` followed by a
per-element multiply by `1/N` (resp. `1/√N`); and consequently, in exact
arithmetic, `UnscaledIfft(x) = N · Ifft(x)` element-wise. -/
theorem scale_policy_spec
    (W : ℕ) (kernel : Bool → ℕ → Bool → ℕ → ℕ → List ℂ → List ℂ → List ℂ)
    (stages : List (ℕ × ℕ)) (N : ℕ) (ftw rtw input output : List ℂ)
    (size : ℕ) (x_f x_i w_f w_i : List ℂ)
    (inner_fft : Bool → List ℂ → List ℂ) (binput work : List ℂ)
    (hN : N ≠ 0) (hsize : size ≠ 0) :
    (apply_stages W kernel stages N ftw rtw input output .SqrtScaledFft
      = (apply_stages W kernel stages N ftw rtw input output .Fft).map
          (List.map (fun z => z * ((1 / Real.sqrt (N : ℝ) : ℝ) : ℂ)))) ∧
    (apply_stages W kernel stages N ftw rtw input output .Ifft
      = (apply_stages W kernel stages N ftw rtw input output
            .UnscaledIfft).map
          (List.map (fun z => z * ((1 / (N : ℝ) : ℝ) : ℂ)))) ∧
    (apply_stages W kernel stages N ftw rtw input output .SqrtScaledIfft
      = (apply_stages W kernel stages N ftw rtw input output
            .UnscaledIfft).map
          (List.map (fun z => z * ((1 / Real.sqrt (N : ℝ) : ℝ) : ℂ)))) ∧
    (apply_stages W kernel stages N ftw rtw input output .UnscaledIfft
      = (apply_stages W kernel stages N ftw rtw input output .Ifft).map
          (List.map (fun z => (N : ℂ) * z))) ∧
    (bluesteins_transform_in_place size x_f x_i w_f w_i inner_fft binput
        work .SqrtScaledFft
      = (bluesteins_transform_in_place size x_f x_i w_f w_i inner_fft binput
            work .Fft).map
          (List.map (fun z => z * ((1 / Real.sqrt (size : ℝ) : ℝ) : ℂ)))) ∧
    (bluesteins_transform_in_place size x_f x_i w_f w_i inner_fft binput
        work .Ifft
      = (bluesteins_transform_in_place size x_f x_i w_f w_i inner_fft binput
            work .UnscaledIfft).map
          (List.map (fun z => z * ((1 / (size : ℝ) : ℝ) : ℂ)))) ∧
    (bluesteins_transform_in_place size x_f x_i w_f w_i inner_fft binput
        work .SqrtScaledIfft
      = (bluesteins_transform_in_place size x_f x_i w_f w_i inner_fft binput
            work .UnscaledIfft).map
          (List.map (fun z => z * ((1 / Real.sqrt (size : ℝ) : ℝ) : ℂ)))) ∧
    (bluesteins_transform_in_place size x_f x_i w_f w_i inner_fft binput
        work .UnscaledIfft
      = (bluesteins_transform_in_place size x_f x_i w_f w_i inner_fft binput
            work .Ifft).map
          (List.map (fun z => (size : ℂ) * z))) := by
  have cancel : ∀ M : ℕ, M ≠ 0 →
      ∀ z : ℂ, (M : ℂ) * (z * ((1 / (M : ℝ) : ℝ) : ℂ)) = z := by
    intro M hM z
    have hMc : (M : ℂ) ≠ 0 := Nat.cast_ne_zero.mpr hM
    push_cast
    rw [one_div]
    calc (M : ℂ) * (z * ((M : ℂ))⁻¹) = z * ((M : ℂ) * ((M : ℂ))⁻¹) := by
          ring
      _ = z := by rw [mul_inv_cancel₀ hMc, mul_one]
  have hcompN : ((fun z => (N : ℂ) * z)
      ∘ (fun z => z * ((1 / (N : ℝ) : ℝ) : ℂ))) = id := by
    funext z
    simp only [Function.comp_apply, id_eq]
    exact cancel N hN z
  have hcompS : ((fun z => (size : ℂ) * z)
      ∘ (fun z => z * ((1 / (size : ℝ) : ℝ) : ℂ))) = id := by
    funext z
    simp only [Function.comp_apply, id_eq]
    exact cancel size hsize z
  refine ⟨?_, ?_, ?_, ?_, ?_, ?_, ?_, ?_⟩
  · by_cases h : input.length = output.length ∧ N = input.length
    · simp only [apply_stages, if_pos h]; rfl
    · simp only [apply_stages, if_neg h]; rfl
  · by_cases h : input.length = output.length ∧ N = input.length
    · simp only [apply_stages, if_pos h]; rfl
    · simp only [apply_stages, if_neg h]; rfl
  · by_cases h : input.length = output.length ∧ N = input.length
    · simp only [apply_stages, if_pos h]; rfl
    · simp only [apply_stages, if_neg h]; rfl
  · by_cases h : input.length = output.length ∧ N = input.length
    · simp only [apply_stages, Transform.is_forward, if_pos h,
        Option.map_some', List.map_map]
      congr 1
      rw [hcompN, List.map_id]
    · simp only [apply_stages, if_neg h]; rfl
  · by_cases h : binput.length = size
    · simp only [bluesteins_transform_in_place, bluesteins_apply,
        Transform.is_forward, if_pos h, Option.map_some']
      congr 1
      rw [zipWith_mul_scale, reverse_tail_map]
    · simp only [bluesteins_transform_in_place, bluesteins_apply,
        if_neg h]; rfl
  · by_cases h : binput.length = size
    · simp only [bluesteins_transform_in_place, bluesteins_apply,
        Transform.is_forward, if_pos h, Option.map_some']
      congr 1
      rw [zipWith_mul_scale, reverse_tail_map]
    · simp only [bluesteins_transform_in_place, bluesteins_apply,
        if_neg h]; rfl
  · by_cases h : binput.length = size
    · simp only [bluesteins_transform_in_place, bluesteins_apply,
        Transform.is_forward, if_pos h, Option.map_some']
      congr 1
      rw [zipWith_mul_scale, reverse_tail_map]
    · simp only [bluesteins_transform_in_place, bluesteins_apply,
        if_neg h]; rfl
  · by_cases h : binput.length = size
    · simp only [bluesteins_transform_in_place, bluesteins_apply,
        Transform.is_forward, if_pos h, Option.map_some']
      congr 1
      conv_rhs => rw [zipWith_mul_scale, reverse_tail_map, List.map_map,
        hcompS, List.map_id]
    · simp only [bluesteins_transform_in_place, bluesteins_apply,
        if_neg h]; rfl

/-- Witness for C5: the headline relation `UnscaledIfft = N · Ifft`,
instantiated for `apply_stages` with the trivial kernel, no stages,
`N = 1`, one-element buffers. -/
theorem scale_policy_spec_witness :
    apply_stages 1 id_kernel [] 1 [] [] [0] [0] .UnscaledIfft
      = (apply_stages 1 id_kernel [] 1 [] [] [0] [0] .Ifft).map
          (List.map (fun z => ((1 : ℕ) : ℂ) * z)) :=
  (scale_policy_spec 1 id_kernel [] 1 [] [] [0] [0] 1 [1] [1] [1] [1]
    id_inner [0] [0] (by norm_num) (by norm_num)).2.2.2.1

/-- C7 (corrected): every out-of-place `Fft::transform` call asserts both
buffer lengths against the plan size (mismatch panics, modelled `none`),
and the in-place autosort and Bluestein transforms assert the input length
— but `Identity::transform_in_place` performs no length check at all and
silently returns on a buffer of any length. -/
theorem length_assert_spec :
    (∀ (size : ℕ) (f : List ℂ → Transform → Option (List ℂ))
        (input output : List ℂ) (t : Transform),
        input.length ≠ size → Fft.transform size f input output t = none) ∧
    (∀ (size : ℕ) (f : List ℂ → Transform → Option (List ℂ))
        (input output : List ℂ) (t : Transform),
        output.length ≠ size → Fft.transform size f input output t = none) ∧
    (∀ (W : ℕ)
        (kernel : Bool → ℕ → Bool → ℕ → ℕ → List ℂ → List ℂ → List ℂ)
        (stages : List (ℕ × ℕ)) (N : ℕ)
        (ftw rtw input output : List ℂ) (t : Transform),
        input.length ≠ N →
        apply_stages W kernel stages N ftw rtw input output t = none) ∧
    (∀ (size : ℕ) (x w : List ℂ) (inner_fft : Bool → List ℂ → List ℂ)
        (input work : List ℂ) (t : Transform),
        input.length ≠ size →
        bluesteins_apply size x w inner_fft input work t = none) ∧
    (∀ (input : List ℂ) (t : Transform),
        Identity.transform_in_place input t = some input) := by
  refine ⟨?_, ?_, ?_, ?_, ?_⟩
  · intro size f input output t h
    rw [Fft.transform, if_neg h]
  · intro size f input output t h
    rw [Fft.transform]
    by_cases h1 : input.length = size
    · rw [if_pos h1, if_neg h]
    · rw [if_neg h1]
  · intro W kernel stages N ftw rtw input output t h
    rw [apply_stages, if_neg]
    intro hc
    exact h hc.2.symm
  · intro size x w inner_fft input work t h
    rw [bluesteins_apply, if_neg h]
  · intro input t
    rfl

/-- Witness for C7: the amended statement evaluated concretely — a size-1
plan's out-of-place transform on a length-2 input panics. -/
theorem length_assert_spec_witness :
    Fft.transform 1 Identity.transform_in_place [0, 0] [] .Fft = none :=
  length_assert_spec.1 1 Identity.transform_in_place [0, 0] [] .Fft
    (by simp)

/-- Counterexample for C7: the identity algorithm's in-place transform,
called on a length-2 buffer although the plan size is 1, does not fail any
assertion — it silently returns the buffer. -/
theorem length_assert_counterexample :
    Identity.transform_in_place [0, 0] Transform.Fft = some [0, 0] ∧
    ([0, 0] : List ℂ).length ≠ 1 :=
  ⟨rfl, by simp⟩

/-- C10: the provided out-of-place `Fft::transform` leaves the input buffer
exactly as it was, and the output buffer ends up equal to the in-place
transform applied to a copy of the input — for any plan size, any in-place
implementation, and any transform kind. -/
theorem transform_out_of_place_frame (size : ℕ)
    (f : List ℂ → Transform → Option (List ℂ))
    (input output r : List ℂ) (t : Transform)
    (h1 : input.length = size) (h2 : output.length = size)
    (h3 : f input t = some r) :
    Fft.transform size f input output t = some (input, r) := by
  rw [Fft.transform, if_pos h1, if_pos h2, h3]

/-- Witness for C10: a size-1 identity plan; the input `[0]` is unchanged
and the output buffer (initially `[1]`) ends as the transformed copy. -/
theorem transform_out_of_place_frame_witness :
    Fft.transform 1 Identity.transform_in_place [0] [1] Transform.Fft
      = some ([0], [0]) :=
  transform_out_of_place_frame 1 Identity.transform_in_place [0] [1] [0]
    Transform.Fft (by simp) (by simp) rfl

/-- C8: `Transform::inverse` pairs `Fft` with `Ifft` and `SqrtScaledFft` with
`SqrtScaledIfft`, returns `none` exactly on `UnscaledIfft`, and on every
other transform kind is an involution: applying `inverse` twice returns the
original kind wrapped in `some`. -/
theorem transform_inverse_spec :
    Transform.inverse .Fft = some .Ifft ∧
    Transform.inverse .Ifft = some .Fft ∧
    Transform.inverse .SqrtScaledFft = some .SqrtScaledIfft ∧
    Transform.inverse .SqrtScaledIfft = some .SqrtScaledFft ∧
    (∀ t : Transform, Transform.inverse t = none ↔ t = .UnscaledIfft) ∧
    (∀ t : Transform, t ≠ .UnscaledIfft →
      (Transform.inverse t).bind Transform.inverse = some t) := by
  refine ⟨rfl, rfl, rfl, rfl, ?_, ?_⟩
  · intro t; cases t <;> simp [Transform.inverse]
  · intro t ht; cases t <;> simp [Transform.inverse] at *

/-- Witness for C8: evaluated at the concrete kind `Fft`. -/
theorem transform_inverse_spec_witness :
    ((Transform.inverse .Fft).bind Transform.inverse = some .Fft) :=
  transform_inverse_spec.2.2.2.2.2 .Fft (by decide)

end Fourier
